import Mathlib

/-!
Verification development for the PythiaEvolution repository.

The repository renders pre-computed neuron-activation-cluster data.  Its one
algorithmic core is duplicated identically in `streamlit_app.py` and
`create_interactive_visualization.py` (plus an embedded JavaScript copy):

* `tokenize_text`     — split a string into non-whitespace / whitespace runs,
                        then drop the whitespace-only runs;
* `analyze_common_words` — score whole words and short fragments of the
                        cluster's texts and return the top-n terms;
* `highlight_pattern` / `highlight_tokens` — per-token boolean highlighting
                        from substring overlap with the common terms;
* the renderers' grouping of examples by cluster label, the two checkpoint
  panels, and the per-file loaders.

Strings are embedded as `List Char`; Python dicts (insertion-ordered) as
association lists `List (List Char × Nat)` updated in place; Python's stable
`sorted(..., reverse=True)` as a stable insertion sort.  Only ASCII input is
modelled: the character classes below are the ASCII fragments of Python's
`\s` and `\w`, which is exact on the data the claims mention.
-/

/-- ASCII fragment of Python's whitespace class `\s` (and `str.strip`). -/
def isSpace (c : Char) : Bool :=
  c == ' ' || c == '\t' || c == '\n' || c == '\r' || c == '\x0b' || c == '\x0c'

/-- ASCII fragment of Python's word-character class `\w`: letters, digits, underscore. -/
def isWordChar (c : Char) : Bool :=
  ('a' ≤ c && c ≤ 'z') || ('A' ≤ c && c ≤ 'Z') || ('0' ≤ c && c ≤ '9') || c == '_'

/-- Lowercase ASCII letter, the character class `[a-z]` of the word regex. -/
def isLowerAlpha (c : Char) : Bool :=
  'a' ≤ c && c ≤ 'z'

/-- Embedding of `re.findall(r'\S+|\s+', text)`: split into maximal runs of
non-whitespace and maximal runs of whitespace, in original order.  The fuel
argument (called with `length + 1`) only bounds the recursion so that the
definition is structural and kernel-evaluable; every step consumes at least
one character, so the initial fuel is never exhausted. -/
def splitRunsFuel : Nat → List Char → List (List Char)
  | 0, _ => []
  | _, [] => []
  | fuel + 1, c :: rest =>
      (c :: List.takeWhile (fun d => isSpace d == isSpace c) rest)
        :: splitRunsFuel fuel (List.dropWhile (fun d => isSpace d == isSpace c) rest)

/-- All maximal whitespace / non-whitespace runs of `text`, in order. -/
def splitRuns (l : List Char) : List (List Char) :=
  splitRunsFuel (l.length + 1) l

/-- Embedding of Python `str.strip()`: drop leading and trailing whitespace. -/
def py_strip (l : List Char) : List Char :=
  ((l.dropWhile isSpace).reverse.dropWhile isSpace).reverse

/-- Embedding of `tokenize_text` (`streamlit_app.py:201-204`,
`create_interactive_visualization.py:45-48`):
`tokens = re.findall(r'\S+|\s+', text); return [t for t in tokens if t.strip()]`. -/
def tokenize_text (text : List Char) : List (List Char) :=
  (splitRuns text).filter (fun t => !(py_strip t).isEmpty)

/-- Embedding of `re.findall(r'\b[a-z]+\b', s)` on an already-lowercased
string: the matches are exactly the maximal runs of `[a-z]` whose neighbouring
characters (if any) are not word characters (the `\b` boundaries; a run
adjacent to a digit or underscore is skipped whole, as the regex engine
backtracks through it without finding a trailing boundary).  `prev_word` says
whether the previous character was a word character (false at the start).
Fuel as in `splitRunsFuel`. -/
def findWordsFuel : Nat → Bool → List Char → List (List Char)
  | 0, _, _ => []
  | _, _, [] => []
  | fuel + 1, prev_word, c :: rest =>
      if isLowerAlpha c && !prev_word then
        let run := c :: List.takeWhile isLowerAlpha rest
        let rest2 := List.dropWhile isLowerAlpha rest
        let boundary := match rest2 with
          | [] => true
          | d :: _ => !isWordChar d
        if boundary then run :: findWordsFuel fuel true rest2
        else findWordsFuel fuel true rest2
      else
        findWordsFuel fuel (isWordChar c) rest

/-- All `\b[a-z]+\b` matches of `l`, in order. -/
def find_words (l : List Char) : List (List Char) :=
  findWordsFuel (l.length + 1) false l

/-- The fixed stop-word set of `analyze_common_words`
(`streamlit_app.py:152-163`, `create_interactive_visualization.py:59-70`),
transcribed in source order; `'her'` appears twice in the source literal and
the duplicate is kept (membership is unaffected). -/
def stop_words : List (List Char) :=
  (["the", "a", "an", "and", "or", "but", "in", "on", "at", "to", "for", "of", "with", "by",
    "from", "up", "about", "into", "through", "during", "before", "after", "above", "below",
    "between", "among", "this", "that", "these", "those", "i", "you", "he", "she", "it", "we",
    "they", "me", "him", "her", "us", "them", "my", "your", "his", "her", "its", "our", "their",
    "is", "are", "was", "were", "be", "been", "being", "have", "has", "had", "do", "does", "did",
    "will", "would", "could", "should", "may", "might", "can", "must", "shall", "not", "no", "yes",
    "as", "so", "if", "when", "where", "why", "how", "what", "who", "which", "whose", "whom",
    "all", "any", "some", "many", "few", "most", "more", "less", "much", "little", "very", "too",
    "also", "only", "just", "even", "still", "again", "here", "there", "now", "then", "today",
    "yesterday", "tomorrow", "one", "two", "three", "first", "second", "third", "last", "next"
   ] : List String).map String.toList

/-- In-place counter update of a Python dict `m[k] = m.get(k, 0) + v`:
the first entry with key `k` is incremented, otherwise `(k, v)` is appended
(dicts preserve insertion order). -/
def bump : List (List Char × Nat) → List Char → Nat → List (List Char × Nat)
  | [], k, v => [(k, v)]
  | (k1, v1) :: rest, k, v =>
      if k1 = k then (k1, v1 + v) :: rest else (k1, v1) :: bump rest k v

/-- Value stored for a key (0 when absent), reading the first matching entry. -/
def lookv : List (List Char × Nat) → List Char → Nat
  | [], _ => 0
  | (k1, v1) :: rest, key => if k1 = key then v1 else lookv rest key

/-- Key sequence of an association list (dict iteration order). -/
def keys (m : List (List Char × Nat)) : List (List Char) :=
  m.map Prod.fst

/-- Counting loop `for k in ks: m[k] = m.get(k, 0) + 1`. -/
def countsFold (ks : List (List Char)) (m0 : List (List Char × Nat)) :
    List (List Char × Nat) :=
  ks.foldl (fun m k => bump m k 1) m0

/-- Number of occurrences of `key` in `ks`. -/
def count_key : List (List Char) → List Char → Nat
  | [], _ => 0
  | k :: ks, key => (if k = key then 1 else 0) + count_key ks key

/-- `' '.join(texts).lower()` (`streamlit_app.py:149`). -/
def combined_text (texts : List (List Char)) : List Char :=
  (List.intercalate [' '] texts).map Char.toLower

/-- The candidate filter `len(word) >= min_length and word not in stop_words`. -/
def keep_word (min_length : Nat) (w : List Char) : Bool :=
  decide (min_length ≤ w.length) && decide (w ∉ stop_words)

/-- The fragment filter `fragment not in stop_words`. -/
def frag_ok (f : List Char) : Bool :=
  decide (f ∉ stop_words)

/-- The fragment enumeration of `analyze_common_words`
(`streamlit_app.py:176-178`): `word[start:start+frag_len]` for
`frag_len in range(min_length, min(len(word) + 1, 8))` and
`start in range(len(word) - frag_len + 1)`, in loop order. -/
def fragments_of (min_length : Nat) (w : List Char) : List (List Char) :=
  (List.range' min_length (min (w.length + 1) 8 - min_length)).flatMap
    (fun frag_len => (List.range (w.length - frag_len + 1)).map
      (fun start => (w.drop start).take frag_len))

/-- `word_counts` of `analyze_common_words` (`streamlit_app.py:166-170`). -/
def word_counts (texts : List (List Char)) (min_length : Nat) :
    List (List Char × Nat) :=
  (find_words (combined_text texts)).foldl
    (fun m w => if keep_word min_length w then bump m w 1 else m) []

/-- `fragment_counts` of `analyze_common_words` (`streamlit_app.py:173-180`). -/
def fragment_counts (texts : List (List Char)) (min_length : Nat) :
    List (List Char × Nat) :=
  (find_words (combined_text texts)).foldl
    (fun m w =>
      if keep_word min_length w then
        (fragments_of min_length w).foldl
          (fun m2 f => if frag_ok f then bump m2 f 1 else m2) m
      else m) []

/-- `all_counts` of `analyze_common_words` (`streamlit_app.py:183-195`):
whole words weighted double, then each fragment with count at least 5 summed
in (appended as a new entry when the key is new). -/
def all_counts (texts : List (List Char)) (min_length : Nat) :
    List (List Char × Nat) :=
  (fragment_counts texts min_length).foldl
    (fun m p => if 5 ≤ p.2 then bump m p.1 p.2 else m)
    ((word_counts texts min_length).map (fun p => (p.1, p.2 * 2)))

/-- Insertion step of a stable descending sort on the score: `x` is placed
before the first entry whose score is `≤` its own, hence before all entries
with equal score — which is exactly where Python's stable
`sorted(..., key=lambda x: x[1], reverse=True)` puts an element relative to
the equal-scored elements that follow it in the input. -/
def insertDesc (x : List Char × Nat) :
    List (List Char × Nat) → List (List Char × Nat)
  | [] => [x]
  | y :: ys => if y.2 ≤ x.2 then x :: y :: ys else y :: insertDesc x ys

/-- Stable sort by score, descending (`sorted(all_counts.items(),
key=lambda x: x[1], reverse=True)`, `streamlit_app.py:198`). -/
def sortDesc : List (List Char × Nat) → List (List Char × Nat)
  | [] => []
  | x :: xs => insertDesc x (sortDesc xs)

/-- Embedding of `analyze_common_words(texts, min_length, top_n)`
(`streamlit_app.py:143-199`, `create_interactive_visualization.py:50-110`).
The Python defaults are `min_length=3, top_n=2`; call sites pass them
explicitly here. -/
def analyze_common_words (texts : List (List Char)) (min_length : Nat)
    (top_n : Nat) : List (List Char) :=
  if texts.isEmpty then []
  else ((sortDesc (all_counts texts min_length)).take top_n).map Prod.fst

/-- The surviving whole words (candidates passing the filter), in order:
the key material of `word_counts`. -/
def filtered_words (texts : List (List Char)) (min_length : Nat) :
    List (List Char) :=
  (find_words (combined_text texts)).filter (keep_word min_length)

/-- All counted fragment occurrences in loop order: the key material of
`fragment_counts`. -/
def all_fragments (texts : List (List Char)) (min_length : Nat) :
    List (List Char) :=
  (find_words (combined_text texts)).flatMap
    (fun w => if keep_word min_length w then
        (fragments_of min_length w).filter frag_ok
      else [])

/-- Python's substring test `needle in hay`: some contiguous slice of `hay`
equals `needle` (true for the empty needle, as in Python). -/
def substr_check (needle hay : List Char) : Bool :=
  (List.range (hay.length + 1)).any
    (fun i => decide ((hay.drop i).take needle.length = needle))

/-- `clean_token = re.sub(r'[^\w]', '', token.lower())`
(`streamlit_app.py:219-220`, `create_interactive_visualization.py:127-128`). -/
def clean_token (token : List Char) : List Char :=
  (token.map Char.toLower).filter isWordChar

/-- Per-token highlight decision (`streamlit_app.py:222-227`,
`create_interactive_visualization.py:130-136`): true when the cleaned token is
non-empty and some common word contains it or is contained in it. -/
def token_is_highlighted (common_words : List (List Char)) (token : List Char) :
    Bool :=
  let ct := clean_token token
  if ct.isEmpty then false
  else common_words.any (fun w => substr_check w ct || substr_check ct w)

/-- Embedding of `highlight_pattern(tokens, ..., is_right_panel, cluster_texts)`
(`create_interactive_visualization.py:112-143`).  The source returns the float
activations 0.9 / 0.1; they are pure rendering constants, embedded as the
booleans true / false.  The unused `pattern` and `cluster_id` parameters are
dropped. -/
def highlight_pattern (tokens : List (List Char))
    (cluster_texts : List (List Char)) ( is_right_panel : Bool) : List Bool :=
  if cluster_texts.isEmpty then tokens.map (fun _ => false)
  else if ! is_right_panel then tokens.map (fun _ => false)
  else tokens.map (token_is_highlighted (analyze_common_words cluster_texts 3 2))

/-- Per-token flags of `highlight_tokens(text, cluster_texts, is_right_panel)`
(`streamlit_app.py:206-234`).  The source returns HTML; the early returns of
the raw text (left panel, or empty cluster) render every token plain, embedded
as all-false flags; otherwise each token of `tokenize_text(text)` is wrapped
as high or low activation by the same decision as `highlight_pattern`. -/
def highlight_tokens_flags (text : List Char)
    (cluster_texts : List (List Char)) ( is_right_panel : Bool) : List Bool :=
  if ! is_right_panel then (tokenize_text text).map (fun _ => false)
  else if cluster_texts.isEmpty then (tokenize_text text).map (fun _ => false)
  else (tokenize_text text).map
    (token_is_highlighted (analyze_common_words cluster_texts 3 2))

/-- One Checkpoint Record: `checkpoint_step`, `text_examples`, `cluster_labels`
(spec section 3; one JSONL line of a neuron series). -/
structure CheckpointRecord where
  checkpoint_step : Int
  text_examples : List (List Char)
  cluster_labels : List Int
deriving DecidableEq

/-- Record shown in the selected-checkpoint (left) panel
(`streamlit_app.py:349`): `next((d for d in data if d['checkpoint_step'] ==
checkpoint), None)`; `none` renders the "No data available for this
checkpoint" error. -/
def left_panel_data (data : List CheckpointRecord) (checkpoint : Int) :
    Option CheckpointRecord :=
  data.find? (fun d => d.checkpoint_step == checkpoint)

/-- Record shown in the fixed final (right) panel (`streamlit_app.py:357`):
`next((d for d in data if d['checkpoint_step'] == 143000), data[-1] if data
else None)`; `none` renders the "No final data available" error.  The
JavaScript version (`create_interactive_visualization.py:446`) is the same
`find ... || data[data.length - 1]`. -/
def final_panel_data (data : List CheckpointRecord) : Option CheckpointRecord :=
  match data.find? (fun d => d.checkpoint_step == 143000) with
  | some d => some d
  | none => data.getLast?

/-- Dict update of the grouping loop (`streamlit_app.py:251-255`): append the
example to the label's list, inserting a new `(label, [example])` entry at the
end on first sight of the label. -/
def addToCluster : List (Int × List (List Char)) → Int → List Char →
    List (Int × List (List Char))
  | [], label, e => [(label, [e])]
  | (l1, es) :: rest, label, e =>
      if l1 = label then (l1, es ++ [e]) :: rest
      else (l1, es) :: addToCluster rest label e

/-- The `clusters` dict of `display_cluster_data` / `generateClusterHTML`:
examples grouped by positionally-paired label, keys in first-seen order,
values in original example order. -/
def group_clusters (cluster_labels : List Int)
    (text_examples : List (List Char)) : List (Int × List (List Char)) :=
  (List.zip cluster_labels text_examples).foldl
    (fun m p => addToCluster m p.1 p.2) []

/-- Examples stored for a label (first matching entry; `[]` when absent). -/
def glook : List (Int × List (List Char)) → Int → List (List Char)
  | [], _ => []
  | (l1, es) :: rest, label => if l1 = label then es else glook rest label

/-- First-seen order of the distinct labels (dict key order). -/
def first_seen (ls : List Int) : List Int :=
  ls.foldl (fun acc l => if l ∈ acc then acc else acc ++ [l]) []

/-- Insertion step of an ascending sort on the label. -/
def insertAscCluster (x : Int × List (List Char)) :
    List (Int × List (List Char)) → List (Int × List (List Char))
  | [] => [x]
  | y :: ys => if x.1 ≤ y.1 then x :: y :: ys else y :: insertAscCluster x ys

/-- Ascending sort on the label (keys of the grouping dict are distinct, so
any sort matches Python's `sorted`). -/
def sortAscClusters : List (Int × List (List Char)) →
    List (Int × List (List Char))
  | [] => []
  | x :: xs => insertAscCluster x (sortAscClusters xs)

/-- Cluster blocks in display order: the renderers iterate the grouping in
ascending label order — `for cluster_id in sorted(clusters.keys())`
(`streamlit_app.py:258`) and `Object.entries(clusters).sort((a, b) =>
parseInt(a[0]) - parseInt(b[0]))` (`create_interactive_visualization.py:478`). -/
def displayed_clusters (cluster_labels : List Int)
    (text_examples : List (List Char)) : List (Int × List (List Char)) :=
  sortAscClusters (group_clusters cluster_labels text_examples)

/-- A record as the loaders see it: `json.loads` performs no field
validation, so any of the required fields may be absent. -/
structure RawRecord where
  checkpoint_step : Option Int
  text_examples : Option (List (List Char))
  cluster_labels : Option (List Int)
deriving DecidableEq

/-- Reading one data file, each line given as its `json.loads` outcome: the
per-line loop appends parsed records; the first parse failure raises, so the
whole file yields that error and the records parsed so far are discarded
(`streamlit_app.py:127-131`, `create_interactive_visualization.py:24-29`). -/
def read_file_records : List (Except (List Char) RawRecord) →
    Except (List Char) (List RawRecord)
  | [] => .ok []
  | .error e :: _ => .error e
  | .ok r :: rest =>
      match read_file_records rest with
      | .error e => .error e
      | .ok rs => .ok (r :: rs)

/-- The per-file loop of `load_neuron_data` (`streamlit_app.py:115-136`): a
file is `(neuron_id, parsed lines)`; the `try` stores the records under the
neuron id on success, while on exception `st.error` shows a message for that
file and the loop continues.  Result: stored data and shown errors, in file
order. -/
def load_neuron_data
    (files : List (List Char × List (Except (List Char) RawRecord))) :
    List (List Char × List RawRecord) × List (List Char × List Char) :=
  files.foldl
    (fun acc f =>
      match read_file_records f.2 with
      | .ok rs => (acc.1 ++ [(f.1, rs)], acc.2)
      | .error e => (acc.1, acc.2 ++ [(f.1, e)]))
    ([], [])

/-- The loading loop of `create_interactive_visualization`
(`create_interactive_visualization.py:163-170`): `load_checkpoint_data` has no
exception handling, so the first parse failure propagates out of the loop and
aborts loading; no later file is read. -/
def load_all_checkpoint_data :
    List (List Char × List (Except (List Char) RawRecord)) →
    Except (List Char) (List (List Char × List RawRecord))
  | [] => .ok []
  | f :: rest =>
      match read_file_records f.2 with
      | .error e => .error e
      | .ok rs =>
          match load_all_checkpoint_data rest with
          | .error e => .error e
          | .ok acc => .ok ((f.1, rs) :: acc)

/-- The "... and N more examples" note (`streamlit_app.py:273-274`): shown
exactly when a cluster has more than 5 examples. -/
def more_examples_note (examples : List (List Char)) : Option Nat :=
  if 5 < examples.length then some (examples.length - 5) else none

/-- The rendered examples of one cluster (`streamlit_app.py:269-271`): only
`examples[:5]` are rendered, but each call passes the full `examples` list as
the cluster texts of the highlighting analysis. -/
def display_cluster_examples (examples : List (List Char))
    ( is_right_panel : Bool) : List (List Char × List Bool) :=
  (examples.take 5).map
    (fun e => (e, highlight_tokens_flags e examples is_right_panel))

/-- Concrete six-example cluster used to exercise the display truncation: the
sixth (undisplayed) example changes the cluster's common terms. -/
def c10ex : List (List Char) :=
  (["red blue green", "red blue", "red blue", "red blue", "red blue",
    "green green green green green"] : List String).map String.toList

/-- Concrete example texts for the grouping claims. -/
def c6ex : List (List Char) :=
  (["a", "b", "c"] : List String).map String.toList

theorem lookv_bump (m : List (List Char × Nat)) (k : List Char) (v : Nat)
    (key : List Char) :
    lookv (bump m k v) key = if key = k then lookv m key + v else lookv m key := by
  induction m with
  | nil =>
    by_cases h : key = k
    · subst h; simp [bump, lookv]
    · simp [bump, lookv, h, Ne.symm h]
  | cons p rest ih =>
    obtain ⟨k1, v1⟩ := p
    by_cases h1 : k1 = k
    · subst h1
      by_cases h2 : k1 = key
      · subst h2; simp [bump, lookv]
      · simp [bump, lookv, h2, Ne.symm h2]
    · by_cases h2 : k1 = key
      · subst h2
        simp [bump, lookv, h1]
      · simp [bump, lookv, h1, h2, ih]

theorem mem_keys_bump (m : List (List Char × Nat)) (k : List Char) (v : Nat)
    (x : List Char) :
    x ∈ keys (bump m k v) ↔ x ∈ keys m ∨ x = k := by
  induction m with
  | nil => simp [bump, keys]
  | cons p rest ih =>
    obtain ⟨k1, v1⟩ := p
    by_cases h1 : k1 = k
    · subst h1; simp [bump, keys]; tauto
    · simp [bump, keys, h1] at ih ⊢; tauto

theorem nodup_keys_bump (m : List (List Char × Nat)) (k : List Char) (v : Nat)
    (h : (keys m).Nodup) : (keys (bump m k v)).Nodup := by
  induction m with
  | nil => simp [bump, keys]
  | cons p rest ih =>
    obtain ⟨k1, v1⟩ := p
    rw [show keys ((k1, v1) :: rest) = k1 :: keys rest from rfl,
      List.nodup_cons] at h
    by_cases h1 : k1 = k
    · subst h1
      rw [show bump ((k1, v1) :: rest) k1 v = (k1, v1 + v) :: rest by
            simp [bump],
          show keys ((k1, v1 + v) :: rest) = k1 :: keys rest from rfl,
          List.nodup_cons]
      exact h
    · rw [show bump ((k1, v1) :: rest) k v = (k1, v1) :: bump rest k v by
            simp [bump, h1],
          show keys ((k1, v1) :: bump rest k v) = k1 :: keys (bump rest k v)
            from rfl,
          List.nodup_cons]
      refine ⟨?_, ih h.2⟩
      intro hmem
      rcases (mem_keys_bump rest k v k1).1 hmem with hin | heq
      · exact h.1 hin
      · exact h1 heq

theorem lookv_zero_of_not_mem (m : List (List Char × Nat)) (key : List Char)
    (h : key ∉ keys m) : lookv m key = 0 := by
  induction m with
  | nil => rfl
  | cons p rest ih =>
    obtain ⟨k1, v1⟩ := p
    rw [show keys ((k1, v1) :: rest) = k1 :: keys rest from rfl,
      List.mem_cons] at h
    push_neg at h
    simp [lookv, Ne.symm h.1, ih h.2]

theorem lookv_countsFold (ks : List (List Char)) (m0 : List (List Char × Nat))
    (key : List Char) :
    lookv (countsFold ks m0) key = lookv m0 key + count_key ks key := by
  induction ks generalizing m0 with
  | nil => simp [countsFold, count_key]
  | cons k ks ih =>
    simp only [countsFold, List.foldl_cons] at ih ⊢
    rw [ih, lookv_bump]
    by_cases h : key = k
    · subst h; simp [count_key]; omega
    · simp [count_key, h, Ne.symm h]

theorem nodup_keys_countsFold (ks : List (List Char))
    (m0 : List (List Char × Nat)) (h : (keys m0).Nodup) :
    (keys (countsFold ks m0)).Nodup := by
  induction ks generalizing m0 with
  | nil => exact h
  | cons k ks ih =>
    simp only [countsFold, List.foldl_cons] at ih ⊢
    exact ih _ (nodup_keys_bump _ _ _ h)

theorem mem_keys_countsFold (ks : List (List Char))
    (m0 : List (List Char × Nat)) (x : List Char)
    (h : x ∈ keys (countsFold ks m0)) : x ∈ keys m0 ∨ x ∈ ks := by
  induction ks generalizing m0 with
  | nil => exact Or.inl h
  | cons k ks ih =>
    simp only [countsFold, List.foldl_cons] at h
    rcases ih _ h with h1 | h1
    · rcases (mem_keys_bump m0 k 1 x).1 h1 with h2 | h2
      · exact Or.inl h2
      · exact Or.inr (by simp [h2])
    · exact Or.inr (by simp [h1])

theorem foldl_guard_bump (p : List Char → Bool) (ks : List (List Char))
    (m0 : List (List Char × Nat)) :
    ks.foldl (fun m w => if p w then bump m w 1 else m) m0
      = countsFold (ks.filter p) m0 := by
  induction ks generalizing m0 with
  | nil => rfl
  | cons k ks ih =>
    by_cases h : p k <;>
      simp [List.filter_cons, h, countsFold, ih]

theorem word_counts_eq (texts : List (List Char)) (min_length : Nat) :
    word_counts texts min_length
      = countsFold (filtered_words texts min_length) [] := by
  rw [word_counts, filtered_words, foldl_guard_bump]

theorem countsFold_append (a b : List (List Char)) (m0 : List (List Char × Nat)) :
    countsFold (a ++ b) m0 = countsFold b (countsFold a m0) := by
  simp [countsFold, List.foldl_append]

theorem fragment_counts_eq (texts : List (List Char)) (min_length : Nat) :
    fragment_counts texts min_length
      = countsFold (all_fragments texts min_length) [] := by
  rw [fragment_counts, all_fragments]
  generalize find_words (combined_text texts) = ws
  generalize hm : ([] : List (List Char × Nat)) = m0
  clear hm
  induction ws generalizing m0 with
  | nil => rfl
  | cons w ws ih =>
    simp only [List.foldl_cons, List.flatMap_cons, countsFold_append]
    have hstep : (if keep_word min_length w then
          (fragments_of min_length w).foldl
            (fun m2 f => if frag_ok f then bump m2 f 1 else m2) m0
        else m0)
        = countsFold (if keep_word min_length w then
            (fragments_of min_length w).filter frag_ok
          else []) m0 := by
      by_cases h : keep_word min_length w
      · simp [h, foldl_guard_bump]
      · simp [h, countsFold]
    rw [hstep]
    exact ih _

theorem lookv_double (m : List (List Char × Nat)) (key : List Char) :
    lookv (m.map (fun p => (p.1, p.2 * 2))) key = lookv m key * 2 := by
  induction m with
  | nil => rfl
  | cons p rest ih =>
    obtain ⟨k1, v1⟩ := p
    by_cases h : k1 = key <;> simp [lookv, h, ih]

theorem lookv_mergeFold (fc : List (List Char × Nat))
    (m0 : List (List Char × Nat)) (key : List Char)
    (h : (keys fc).Nodup) :
    lookv (fc.foldl (fun m p => if 5 ≤ p.2 then bump m p.1 p.2 else m) m0) key
      = lookv m0 key + (if 5 ≤ lookv fc key then lookv fc key else 0) := by
  induction fc generalizing m0 with
  | nil => simp [lookv]
  | cons p rest ih =>
    obtain ⟨k1, v1⟩ := p
    rw [show keys ((k1, v1) :: rest) = k1 :: keys rest from rfl,
      List.nodup_cons] at h
    simp only [List.foldl_cons]
    rw [ih _ h.2]
    by_cases hk : k1 = key
    · subst hk
      have hz : lookv rest k1 = 0 := lookv_zero_of_not_mem _ _ h.1
      rw [hz, show lookv ((k1, v1) :: rest) k1 = v1 by simp [lookv]]
      by_cases h5 : 5 ≤ v1
      · simp [h5, lookv_bump]
      · simp [h5]
    · rw [show lookv ((k1, v1) :: rest) key = lookv rest key by
            simp [lookv, hk]]
      by_cases h5 : 5 ≤ v1
      · simp [h5, lookv_bump, Ne.symm hk]
      · simp [h5]

theorem mem_keys_mergeFold (fc : List (List Char × Nat))
    (m0 : List (List Char × Nat)) (x : List Char)
    (h : x ∈ keys (fc.foldl
      (fun m p => if 5 ≤ p.2 then bump m p.1 p.2 else m) m0)) :
    x ∈ keys m0 ∨ x ∈ keys fc := by
  induction fc generalizing m0 with
  | nil => exact Or.inl h
  | cons p rest ih =>
    obtain ⟨k1, v1⟩ := p
    simp only [List.foldl_cons] at h
    rcases ih _ h with h1 | h1
    · by_cases h5 : 5 ≤ v1
      · rw [if_pos h5] at h1
        rcases (mem_keys_bump m0 k1 v1 x).1 h1 with h2 | h2
        · exact Or.inl h2
        · exact Or.inr (by simp [keys, h2])
      · rw [if_neg h5] at h1
        exact Or.inl h1
    · exact Or.inr (by simp [keys] at h1 ⊢; tauto)

/-- Score characterization of the merged map `all_counts`: every key scores
its (filter-surviving) whole-word count doubled, plus its fragment count when
that reaches the threshold 5. -/
theorem all_counts_lookv (texts : List (List Char)) (min_length : Nat)
    (key : List Char) :
    lookv (all_counts texts min_length) key
      = count_key (filtered_words texts min_length) key * 2
        + (if 5 ≤ count_key (all_fragments texts min_length) key
           then count_key (all_fragments texts min_length) key else 0) := by
  have hfc : lookv (fragment_counts texts min_length) key
      = count_key (all_fragments texts min_length) key := by
    rw [fragment_counts_eq, lookv_countsFold]; simp [lookv]
  have hnd : (keys (fragment_counts texts min_length)).Nodup := by
    rw [fragment_counts_eq]
    exact nodup_keys_countsFold _ _ (by simp [keys])
  rw [all_counts, lookv_mergeFold _ _ _ hnd, hfc, lookv_double,
    word_counts_eq, lookv_countsFold]
  simp [lookv]

theorem mem_insertDesc (x : List Char × Nat) (l : List (List Char × Nat))
    (a : List Char × Nat) : a ∈ insertDesc x l ↔ a = x ∨ a ∈ l := by
  induction l with
  | nil => simp [insertDesc]
  | cons y ys ih =>
    by_cases h : y.2 ≤ x.2
    · simp [insertDesc, h]
    · simp [insertDesc, h, ih]; tauto

theorem mem_sortDesc (m : List (List Char × Nat)) (a : List Char × Nat) :
    a ∈ sortDesc m ↔ a ∈ m := by
  induction m with
  | nil => simp [sortDesc]
  | cons x xs ih => simp [sortDesc, mem_insertDesc, ih]

theorem chain_insertDesc (x : List Char × Nat) (l : List (List Char × Nat))
    (h : List.Chain' (fun a b => b.2 ≤ a.2) l) :
    List.Chain' (fun a b => b.2 ≤ a.2) (insertDesc x l) := by
  induction l with
  | nil => simp [insertDesc]
  | cons y ys ih =>
    by_cases hy : y.2 ≤ x.2
    · rw [show insertDesc x (y :: ys) = x :: y :: ys by simp [insertDesc, hy],
        List.chain'_cons]
      exact ⟨hy, h⟩
    · rw [List.chain'_cons'] at h
      have htail := ih h.2
      rw [show insertDesc x (y :: ys) = y :: insertDesc x ys by
            simp [insertDesc, hy],
        List.chain'_cons']
      refine ⟨?_, htail⟩
      intro z hz
      cases ys with
      | nil =>
        simp [insertDesc] at hz
        subst hz
        exact Nat.le_of_not_le hy
      | cons w ws =>
        by_cases hw : w.2 ≤ x.2
        · rw [show insertDesc x (w :: ws) = x :: w :: ws by
              simp [insertDesc, hw]] at hz
          simp at hz
          subst hz
          exact Nat.le_of_not_le hy
        · rw [show insertDesc x (w :: ws) = w :: insertDesc x ws by
              simp [insertDesc, hw]] at hz
          simp at hz
          subst hz
          exact h.1 w (by simp)

theorem chain_sortDesc (m : List (List Char × Nat)) :
    List.Chain' (fun a b => b.2 ≤ a.2) (sortDesc m) := by
  induction m with
  | nil => simp [sortDesc]
  | cons x xs ih => exact chain_insertDesc x _ ih

theorem analyze_length_le (texts : List (List Char)) (min_length top_n : Nat) :
    (analyze_common_words texts min_length top_n).length ≤ top_n := by
  rw [analyze_common_words]
  split
  · simp
  · rw [List.length_map]
    exact List.length_take_le _ _

theorem mem_analyze_mem_all_counts (texts : List (List Char))
    (min_length top_n : Nat) (w : List Char)
    (h : w ∈ analyze_common_words texts min_length top_n) :
    ∃ v, (w, v) ∈ all_counts texts min_length := by
  rw [analyze_common_words] at h
  split at h
  · simp at h
  · rw [List.mem_map] at h
    obtain ⟨p, hp, hpw⟩ := h
    exact ⟨p.2, by
      have := (mem_sortDesc _ _).1 (List.mem_of_mem_take hp)
      simpa [← hpw] using this⟩

theorem mem_analyze_sources (texts : List (List Char))
    (min_length top_n : Nat) (w : List Char)
    (h : w ∈ analyze_common_words texts min_length top_n) :
    w ∈ filtered_words texts min_length ∨ w ∈ all_fragments texts min_length := by
  obtain ⟨v, hv⟩ := mem_analyze_mem_all_counts texts min_length top_n w h
  have hk : w ∈ keys (all_counts texts min_length) := by
    simp only [keys, List.mem_map]
    exact ⟨(w, v), hv, rfl⟩
  rw [all_counts] at hk
  rcases mem_keys_mergeFold _ _ _ hk with h1 | h1
  · left
    rw [word_counts_eq] at h1
    have : w ∈ keys (countsFold (filtered_words texts min_length) []) := by
      simpa [keys, List.map_map, Function.comp] using h1
    rcases mem_keys_countsFold _ _ _ this with h2 | h2
    · simp [keys] at h2
    · exact h2
  · right
    rw [fragment_counts_eq] at h1
    rcases mem_keys_countsFold _ _ _ h1 with h2 | h2
    · simp [keys] at h2
    · exact h2

theorem mem_findWordsFuel (fuel : Nat) (pw : Bool) (l : List Char)
    (w : List Char) (h : w ∈ findWordsFuel fuel pw l) :
    w ≠ [] ∧ ∀ c ∈ w, isLowerAlpha c = true := by
  induction fuel generalizing pw l with
  | zero => simp [findWordsFuel] at h
  | succ fuel ih =>
    cases l with
    | nil => simp [findWordsFuel] at h
    | cons c rest =>
      simp only [findWordsFuel] at h
      split at h
      · rename_i hc
        rw [Bool.and_eq_true] at hc
        split at h
        · rcases List.mem_cons.1 h with rfl | h2
          · refine ⟨by simp, ?_⟩
            intro x hx
            rcases List.mem_cons.1 hx with rfl | hx2
            · exact hc.1
            · exact List.mem_takeWhile_imp hx2
          · exact ih _ _ h2
        · exact ih _ _ h
      · exact ih _ _ h

theorem filtered_words_props (texts : List (List Char)) (min_length : Nat)
    (w : List Char) (h : w ∈ filtered_words texts min_length) :
    w ≠ [] ∧ (∀ c ∈ w, isLowerAlpha c = true) ∧ min_length ≤ w.length
      ∧ w ∉ stop_words := by
  rw [filtered_words, List.mem_filter] at h
  have h2 := mem_findWordsFuel _ _ _ _ h.1
  have h3 := h.2
  simp only [keep_word, Bool.and_eq_true, decide_eq_true_eq] at h3
  exact ⟨h2.1, h2.2, h3.1, h3.2⟩

theorem mem_fragments_of (min_length : Nat) (w f : List Char)
    (h : f ∈ fragments_of min_length w) :
    min_length ≤ f.length ∧ f.length ≤ 7 ∧ ∀ c ∈ f, c ∈ w := by
  rw [fragments_of, List.mem_flatMap] at h
  obtain ⟨fl, hfl, hf⟩ := h
  rw [List.mem_range'_1] at hfl
  rw [List.mem_map] at hf
  obtain ⟨start, hstart, rfl⟩ := hf
  rw [List.mem_range] at hstart
  have h8 : min (w.length + 1) 8 ≤ 8 := Nat.min_le_right _ _
  have hw : min (w.length + 1) 8 ≤ w.length + 1 := Nat.min_le_left _ _
  have hlen : ((w.drop start).take fl).length = fl := by
    rw [List.length_take, List.length_drop]
    omega
  refine ⟨by rw [hlen]; omega, by rw [hlen]; omega, ?_⟩
  intro c hc
  exact List.mem_of_mem_drop (List.mem_of_mem_take hc)

theorem all_fragments_props (texts : List (List Char)) (min_length : Nat)
    (f : List Char) (h : f ∈ all_fragments texts min_length) :
    min_length ≤ f.length ∧ f.length ≤ 7
      ∧ (∀ c ∈ f, isLowerAlpha c = true) ∧ f ∉ stop_words := by
  rw [all_fragments, List.mem_flatMap] at h
  obtain ⟨w, hw, hf⟩ := h
  by_cases hk : keep_word min_length w = true
  · rw [if_pos hk, List.mem_filter] at hf
    have hfe := mem_fragments_of _ _ _ hf.1
    have hword := mem_findWordsFuel _ _ _ _ hw
    have hstop : f ∉ stop_words := by
      simpa [frag_ok] using hf.2
    exact ⟨hfe.1, hfe.2.1, fun c hc => hword.2 c (hfe.2.2 c hc), hstop⟩
  · rw [if_neg hk] at hf
    simp at hf

theorem analyze_member_props (texts : List (List Char)) (min_length top_n : Nat)
    (w : List Char) (h : w ∈ analyze_common_words texts min_length top_n) :
    (∀ c ∈ w, isLowerAlpha c = true) ∧ min_length ≤ w.length ∧ w ∉ stop_words
      ∧ (w ∈ filtered_words texts min_length ∨ w.length ≤ 7)
      ∧ (1 ≤ min_length → w ≠ []) := by
  rcases mem_analyze_sources texts min_length top_n w h with h1 | h1
  · have hp := filtered_words_props texts min_length w h1
    exact ⟨hp.2.1, hp.2.2.1, hp.2.2.2, Or.inl h1, fun _ => hp.1⟩
  · have hp := all_fragments_props texts min_length w h1
    refine ⟨hp.2.2.1, hp.1, hp.2.2.2, Or.inr hp.2.1, ?_⟩
    intro h1m he
    have hlen := hp.1
    rw [he] at hlen
    simp at hlen
    omega

theorem substr_check_iff (needle hay : List Char) :
    substr_check needle hay = true
      ↔ ∃ pre post, pre ++ needle ++ post = hay := by
  rw [substr_check, List.any_eq_true]
  constructor
  · rintro ⟨i, hi, hdec⟩
    rw [decide_eq_true_eq] at hdec
    refine ⟨hay.take i, (hay.drop i).drop needle.length, ?_⟩
    rw [List.append_assoc]
    calc hay.take i ++ (needle ++ (hay.drop i).drop needle.length)
        = hay.take i ++ ((hay.drop i).take needle.length
            ++ (hay.drop i).drop needle.length) := by rw [hdec]
      _ = hay.take i ++ hay.drop i := by rw [List.take_append_drop]
      _ = hay := List.take_append_drop i hay
  · rintro ⟨pre, post, rfl⟩
    refine ⟨pre.length, ?_, ?_⟩
    · rw [List.mem_range]
      simp [List.length_append]
      omega
    · rw [decide_eq_true_eq, List.append_assoc, List.drop_left]
      exact List.take_left needle post

theorem splitRunsFuel_flatten (fuel : Nat) (l : List Char)
    (h : l.length < fuel) : (splitRunsFuel fuel l).flatten = l := by
  induction fuel generalizing l with
  | zero => omega
  | succ fuel ih =>
    cases l with
    | nil => rfl
    | cons c rest =>
      rw [splitRunsFuel, List.flatten_cons]
      rw [ih _ (by
        have hd : (List.dropWhile (fun d => isSpace d == isSpace c) rest).length
            ≤ rest.length :=
          (List.dropWhile_sublist _).length_le
        rw [List.length_cons] at h
        omega)]
      rw [List.cons_append, List.takeWhile_append_dropWhile]

theorem splitRunsFuel_runs (fuel : Nat) (l : List Char) (r : List Char)
    (h : r ∈ splitRunsFuel fuel l) :
    r ≠ [] ∧ ∀ c ∈ r, isSpace c = isSpace (r.headD ' ') := by
  induction fuel generalizing l with
  | zero => simp [splitRunsFuel] at h
  | succ fuel ih =>
    cases l with
    | nil => simp [splitRunsFuel] at h
    | cons c rest =>
      rw [splitRunsFuel] at h
      rcases List.mem_cons.1 h with rfl | h2
      · refine ⟨by simp, ?_⟩
        intro x hx
        simp only [List.headD_cons]
        rcases List.mem_cons.1 hx with rfl | hx2
        · rfl
        · have := List.mem_takeWhile_imp hx2
          exact beq_iff_eq.1 this
      · exact ih _ h2

theorem dropWhile_head_false (p : Char → Bool) (l : List Char)
    (d : Char) (ds : List Char) (h : l.dropWhile p = d :: ds) :
    p d = false := by
  induction l with
  | nil => simp [List.dropWhile] at h
  | cons c rest ih =>
    rw [List.dropWhile] at h
    by_cases hc : p c
    · rw [hc] at h
      exact ih h
    · rw [Bool.not_eq_true] at hc
      rw [hc] at h
      cases h
      exact hc

theorem run_all_eq (r : List Char) (b : Bool) (hne : r ≠ [])
    (h : ∀ c ∈ r, isSpace c = b) : r.all isSpace = b := by
  cases r with
  | nil => exact absurd rfl hne
  | cons c rest =>
    have hc := h c (by simp)
    rw [List.all_cons, hc]
    cases b
    · rfl
    · rw [Bool.true_and]
      exact List.all_eq_true.2
        (fun x hx => h x (List.mem_cons_of_mem _ hx))

theorem splitRunsFuel_chain (fuel : Nat) (l : List Char)
    (h : l.length < fuel) :
    List.Chain' (fun r s => r.all isSpace ≠ s.all isSpace)
      (splitRunsFuel fuel l) := by
  induction fuel generalizing l with
  | zero => omega
  | succ fuel ih =>
    cases l with
    | nil => simp [splitRunsFuel]
    | cons c rest =>
      rw [splitRunsFuel, List.chain'_cons']
      have hdlen : (List.dropWhile (fun d => isSpace d == isSpace c) rest).length
          ≤ rest.length :=
        (List.dropWhile_sublist _).length_le
      have hlen2 : (List.dropWhile (fun d => isSpace d == isSpace c) rest).length
          < fuel := by
        rw [List.length_cons] at h
        omega
      refine ⟨?_, ih _ hlen2⟩
      intro s hs
      cases hdrop : List.dropWhile (fun d => isSpace d == isSpace c) rest with
      | nil =>
        rw [hdrop] at hs
        cases fuel with
        | zero => simp [splitRunsFuel] at hs
        | succ fuel2 => simp [splitRunsFuel] at hs
      | cons d ds =>
        rw [hdrop] at hs
        cases fuel with
        | zero => omega
        | succ fuel2 =>
          rw [splitRunsFuel] at hs
          simp only [List.head?_cons, Option.mem_def, Option.some.injEq] at hs
          subst hs
          have hrun1 : (c :: List.takeWhile
              (fun d => isSpace d == isSpace c) rest).all isSpace = isSpace c := by
            apply run_all_eq _ _ (by simp)
            intro x hx
            rcases List.mem_cons.1 hx with rfl | hx2
            · rfl
            · have hx3 := List.mem_takeWhile_imp hx2
              exact beq_iff_eq.1 hx3
          have hrun2 : (d :: List.takeWhile
              (fun e => isSpace e == isSpace d) ds).all isSpace = isSpace d := by
            apply run_all_eq _ _ (by simp)
            intro x hx
            rcases List.mem_cons.1 hx with rfl | hx2
            · rfl
            · have hx3 := List.mem_takeWhile_imp hx2
              exact beq_iff_eq.1 hx3
          rw [hrun1, hrun2]
          have hdf := dropWhile_head_false _ _ _ _ hdrop
          intro heq
          rw [heq] at hdf
          simp at hdf

theorem map_const_false (l : List (List Char)) :
    l.map (fun _ => false) = List.replicate l.length false := by
  induction l with
  | nil => rfl
  | cons x xs ih => simp [List.replicate_succ, ih]

theorem glook_addToCluster (m : List (Int × List (List Char))) (l : Int)
    (e : List Char) (key : Int) :
    glook (addToCluster m l e) key
      = if key = l then glook m key ++ [e] else glook m key := by
  induction m with
  | nil =>
    by_cases h : key = l
    · subst h; simp [addToCluster, glook]
    · simp [addToCluster, glook, h, Ne.symm h]
  | cons p rest ih =>
    obtain ⟨l1, es⟩ := p
    by_cases h1 : l1 = l
    · subst h1
      by_cases h2 : l1 = key
      · subst h2; simp [addToCluster, glook]
      · simp [addToCluster, glook, h2, Ne.symm h2]
    · by_cases h2 : l1 = key
      · subst h2
        simp [addToCluster, glook, h1]
      · simp [addToCluster, glook, h1, h2, ih]

theorem glook_group_fold (ps : List (Int × List Char))
    (m : List (Int × List (List Char))) (key : Int) :
    glook (ps.foldl (fun m p => addToCluster m p.1 p.2) m) key
      = glook m key
        ++ (ps.filter (fun p => decide (p.1 = key))).map Prod.snd := by
  induction ps generalizing m with
  | nil => simp
  | cons p ps ih =>
    obtain ⟨l, e⟩ := p
    simp only [List.foldl_cons, ih, glook_addToCluster, List.filter_cons]
    by_cases h : l = key
    · simp [h, Ne.symm, eq_comm]
    · have h2 : ¬key = l := fun hh => h hh.symm
      simp [h, h2]

theorem keys_addToCluster (m : List (Int × List (List Char))) (l : Int)
    (e : List Char) :
    (addToCluster m l e).map Prod.fst
      = if l ∈ m.map Prod.fst then m.map Prod.fst
        else m.map Prod.fst ++ [l] := by
  induction m with
  | nil => simp [addToCluster]
  | cons p rest ih =>
    obtain ⟨l1, es⟩ := p
    by_cases h1 : l1 = l
    · subst h1; simp [addToCluster]
    · simp only [addToCluster, if_neg h1, List.map_cons, ih]
      by_cases h2 : l ∈ rest.map Prod.fst
      · simp [h2, Ne.symm h1]
      · simp [h2, Ne.symm h1, fun hh : l = l1 => h1 hh.symm]

theorem keys_group_fold (ps : List (Int × List Char))
    (m : List (Int × List (List Char))) :
    (ps.foldl (fun m p => addToCluster m p.1 p.2) m).map Prod.fst
      = (ps.map Prod.fst).foldl
          (fun acc l => if l ∈ acc then acc else acc ++ [l])
          (m.map Prod.fst) := by
  induction ps generalizing m with
  | nil => rfl
  | cons p ps ih =>
    simp only [List.foldl_cons, List.map_cons, ih, keys_addToCluster]

/-- The grouping dict's key sequence is the first-seen order of the labels
actually paired with an example. -/
theorem group_clusters_keys (cluster_labels : List Int)
    (text_examples : List (List Char)) :
    (group_clusters cluster_labels text_examples).map Prod.fst
      = first_seen ((List.zip cluster_labels text_examples).map Prod.fst) := by
  rw [group_clusters, first_seen, keys_group_fold]
  rfl

/-- Per-cluster contents: the examples positionally paired with the label, in
original order. -/
theorem group_clusters_glook (cluster_labels : List Int)
    (text_examples : List (List Char)) (key : Int) :
    glook (group_clusters cluster_labels text_examples) key
      = ((List.zip cluster_labels text_examples).filter
          (fun p => decide (p.1 = key))).map Prod.snd := by
  rw [group_clusters, glook_group_fold]
  rfl

theorem mem_insertAscCluster (x : Int × List (List Char))
    (l : List (Int × List (List Char))) (a : Int × List (List Char)) :
    a ∈ insertAscCluster x l ↔ a = x ∨ a ∈ l := by
  induction l with
  | nil => simp [insertAscCluster]
  | cons y ys ih =>
    by_cases h : x.1 ≤ y.1
    · simp [insertAscCluster, h]
    · simp [insertAscCluster, h, ih]; tauto

theorem mem_sortAscClusters (m : List (Int × List (List Char)))
    (a : Int × List (List Char)) : a ∈ sortAscClusters m ↔ a ∈ m := by
  induction m with
  | nil => simp [sortAscClusters]
  | cons x xs ih => simp [sortAscClusters, mem_insertAscCluster, ih]

theorem chain_insertAscCluster (x : Int × List (List Char))
    (l : List (Int × List (List Char)))
    (h : List.Chain' (fun a b => a.1 ≤ b.1) l) :
    List.Chain' (fun a b => a.1 ≤ b.1) (insertAscCluster x l) := by
  induction l with
  | nil => simp [insertAscCluster]
  | cons y ys ih =>
    by_cases hy : x.1 ≤ y.1
    · rw [show insertAscCluster x (y :: ys) = x :: y :: ys by
            simp [insertAscCluster, hy],
        List.chain'_cons]
      exact ⟨hy, h⟩
    · rw [List.chain'_cons'] at h
      have htail := ih h.2
      rw [show insertAscCluster x (y :: ys) = y :: insertAscCluster x ys by
            simp [insertAscCluster, hy],
        List.chain'_cons']
      refine ⟨?_, htail⟩
      intro z hz
      cases ys with
      | nil =>
        simp [insertAscCluster] at hz
        subst hz
        exact le_of_not_le hy
      | cons w ws =>
        by_cases hw : x.1 ≤ w.1
        · rw [show insertAscCluster x (w :: ws) = x :: w :: ws by
              simp [insertAscCluster, hw]] at hz
          simp at hz
          subst hz
          exact le_of_not_le hy
        · rw [show insertAscCluster x (w :: ws) = w :: insertAscCluster x ws by
              simp [insertAscCluster, hw]] at hz
          simp at hz
          subst hz
          exact h.1 w (by simp)

theorem chain_sortAscClusters (m : List (Int × List (List Char))) :
    List.Chain' (fun a b => a.1 ≤ b.1) (sortAscClusters m) := by
  induction m with
  | nil => simp [sortAscClusters]
  | cons x xs ih => exact chain_insertAscCluster x _ ih

theorem left_panel_none_iff (data : List CheckpointRecord) (sel : Int) :
    left_panel_data data sel = none ↔ ∀ d ∈ data, d.checkpoint_step ≠ sel := by
  rw [left_panel_data, List.find?_eq_none]
  constructor
  · intro h d hd
    simpa using h d hd
  · intro h d hd
    simpa using h d hd

theorem getLast_cons_ne_none (a : CheckpointRecord)
    (l : List CheckpointRecord) : (a :: l).getLast? ≠ none := by
  induction l generalizing a with
  | nil => simp [List.getLast?]
  | cons b l ih =>
    rw [List.getLast?_cons_cons]
    exact ih b

theorem final_panel_none_iff (data : List CheckpointRecord) :
    final_panel_data data = none ↔ data = [] := by
  cases data with
  | nil => simp [final_panel_data, List.find?]
  | cons d ds =>
    constructor
    · intro h
      exfalso
      rcases hf : List.find? (fun r => r.checkpoint_step == 143000) (d :: ds)
        with _ | r
      · rw [final_panel_data, hf] at h
        exact getLast_cons_ne_none d ds h
      · rw [final_panel_data, hf] at h
        simp at h
    · intro h
      simp at h

theorem load_fold_spec
    (files : List (List Char × List (Except (List Char) RawRecord)))
    (d : List (List Char × List RawRecord))
    (errs : List (List Char × List Char)) :
    files.foldl
      (fun acc f =>
        match read_file_records f.2 with
        | .ok rs => (acc.1 ++ [(f.1, rs)], acc.2)
        | .error e => (acc.1, acc.2 ++ [(f.1, e)]))
      (d, errs)
      = (d ++ files.filterMap (fun f =>
            match read_file_records f.2 with
            | .ok rs => some (f.1, rs)
            | .error _ => none),
         errs ++ files.filterMap (fun f =>
            match read_file_records f.2 with
            | .ok _ => none
            | .error e => some (f.1, e))) := by
  induction files generalizing d errs with
  | nil => simp
  | cons f fs ih =>
    rcases hf : read_file_records f.2 with e | rs
    · simp only [List.foldl_cons, List.filterMap_cons, hf]
      rw [ih]
      simp
    · simp only [List.foldl_cons, List.filterMap_cons, hf]
      rw [ih]
      simp

/-- The dashboard loader stores exactly the files whose records all parse and
shows one error per failing file, in file order. -/
theorem load_neuron_data_spec
    (files : List (List Char × List (Except (List Char) RawRecord))) :
    load_neuron_data files
      = (files.filterMap (fun f =>
            match read_file_records f.2 with
            | .ok rs => some (f.1, rs)
            | .error _ => none),
         files.filterMap (fun f =>
            match read_file_records f.2 with
            | .ok _ => none
            | .error e => some (f.1, e))) := by
  rw [load_neuron_data, load_fold_spec]
  simp

/-- The static-export loader aborts at the first failing file: nothing is
returned for any file, including those after the failure. -/
theorem load_all_abort
    (pre : List (List Char × List (Except (List Char) RawRecord)))
    (f : List Char × List (Except (List Char) RawRecord))
    (post : List (List Char × List (Except (List Char) RawRecord)))
    (e : List Char)
    (hok : ∀ g ∈ pre, ∃ rs, read_file_records g.2 = .ok rs)
    (herr : read_file_records f.2 = .error e) :
    load_all_checkpoint_data (pre ++ f :: post) = .error e := by
  induction pre with
  | nil =>
    simp only [List.nil_append, load_all_checkpoint_data, herr]
  | cons g gs ih =>
    obtain ⟨rs, hg⟩ := hok g (by simp)
    rw [List.cons_append]
    simp only [load_all_checkpoint_data, hg]
    rw [ih (fun x hx => hok x (by simp [hx]))]

set_option maxRecDepth 10000

/-- C1: in `analyze_common_words`, every surviving whole word's merged score
is its word count times 2; a fragment contributes to the merged map only when
its fragment count is at least 5, summed into the score when it coincides
with a scored whole word; the returned terms are the merged entries in
descending score order truncated to `top_n`; and concretely
`analyze_common_words(["cat cat cat dog"], 3, 1) = ["cat"]`, with cat's
merged score 6 strictly dominating dog's score 2. -/
theorem c1_common_terms_merge_and_order :
    (∀ texts min_length key,
      lookv (all_counts texts min_length) key
        = count_key (filtered_words texts min_length) key * 2
          + (if 5 ≤ count_key (all_fragments texts min_length) key
             then count_key (all_fragments texts min_length) key else 0))
  ∧ (∀ (t : List Char) (ts : List (List Char)) (min_length top_n : Nat),
      analyze_common_words (t :: ts) min_length top_n
        = ((sortDesc (all_counts (t :: ts) min_length)).take top_n).map
            Prod.fst)
  ∧ (∀ texts min_length,
      List.Chain' (fun a b => b.2 ≤ a.2)
        (sortDesc (all_counts texts min_length)))
  ∧ (∀ texts min_length top_n,
      (analyze_common_words texts min_length top_n).length ≤ top_n)
  ∧ analyze_common_words ["cat cat cat dog".toList] 3 1 = ["cat".toList]
  ∧ lookv (all_counts ["cat cat cat dog".toList] 3) "cat".toList = 6
  ∧ lookv (all_counts ["cat cat cat dog".toList] 3) "dog".toList = 2 :=
  ⟨all_counts_lookv,
   fun t ts min_length top_n => by simp [analyze_common_words],
   fun texts min_length => chain_sortDesc _,
   analyze_length_le,
   by decide, by decide, by decide⟩

/-- C2: with non-empty cluster texts and emphasize true, the highlighter
marks a token true exactly when its cleaned form (non-word characters
stripped) is non-empty and some common term (computed with min_length 3,
top_n 2) is a substring of it or it is a substring of the term. -/
theorem c2_highlighter_marks_iff :
    (∀ (tokens : List (List Char)) (t : List Char) (ts : List (List Char)),
      highlight_pattern tokens (t :: ts) true
        = tokens.map
            (token_is_highlighted (analyze_common_words (t :: ts) 3 2)))
  ∧ (∀ (common : List (List Char)) (token : List Char),
      token_is_highlighted common token = true
        ↔ clean_token token ≠ []
          ∧ ∃ u ∈ common,
              (∃ pre post, pre ++ u ++ post = clean_token token)
              ∨ (∃ pre post, pre ++ clean_token token ++ post = u)) := by
  constructor
  · intro tokens t ts
    simp [highlight_pattern]
  · intro common token
    simp only [token_is_highlighted]
    by_cases h : (clean_token token).isEmpty = true
    · rw [if_pos h]
      have he : clean_token token = [] := by simpa using h
      simp [he]
    · rw [if_neg h]
      have hne : clean_token token ≠ [] := fun hh => h (by simp [hh])
      rw [List.any_eq_true]
      constructor
      · rintro ⟨u, hu, hor⟩
        rw [Bool.or_eq_true] at hor
        refine ⟨hne, u, hu, ?_⟩
        rcases hor with h1 | h1
        · exact Or.inl ((substr_check_iff _ _).1 h1)
        · exact Or.inr ((substr_check_iff _ _).1 h1)
      · rintro ⟨-, u, hu, hor⟩
        refine ⟨u, hu, ?_⟩
        rw [Bool.or_eq_true]
        rcases hor with h1 | h1
        · exact Or.inl ((substr_check_iff _ _).2 h1)
        · exact Or.inr ((substr_check_iff _ _).2 h1)

/-- C3: with empty cluster texts, or with emphasize false, both highlighters
return an all-false (all low-activation) vector whose length is the number of
tokens, regardless of token content. -/
theorem c3_highlighter_all_false :
    (∀ (tokens : List (List Char)) ( is_right_panel : Bool),
      highlight_pattern tokens [] is_right_panel
        = List.replicate tokens.length false)
  ∧ (∀ (tokens cluster_texts : List (List Char)),
      highlight_pattern tokens cluster_texts false
        = List.replicate tokens.length false)
  ∧ (∀ (text : List Char) ( is_right_panel : Bool),
      highlight_tokens_flags text [] is_right_panel
        = List.replicate (tokenize_text text).length false)
  ∧ (∀ (text : List Char) (cluster_texts : List (List Char)),
      highlight_tokens_flags text cluster_texts false
        = List.replicate (tokenize_text text).length false) := by
  refine ⟨?_, ?_, ?_, ?_⟩
  · intro tokens rp
    rw [highlight_pattern]
    simp [map_const_false]
  · intro tokens cts
    rw [highlight_pattern]
    split
    · exact map_const_false tokens
    · simp [map_const_false]
  · intro text rp
    rw [highlight_tokens_flags]
    split
    · exact map_const_false _
    · simp [map_const_false]
  · intro text cts
    rw [highlight_tokens_flags]
    simp [map_const_false]

/-- C4: the tokenizer's run decomposition covers the text exactly
(concatenation restores the input), every run is non-empty and uniformly
whitespace or uniformly non-whitespace, consecutive runs alternate class
(maximality), the tokenizer is that decomposition with whitespace-only runs
filtered out, and `tokenize_text "a  b" = ["a", "b"]`,
`tokenize_text "" = []`. -/
theorem c4_tokenizer_runs_roundtrip :
    (∀ text : List Char, (splitRuns text).flatten = text)
  ∧ (∀ text : List Char, ∀ r ∈ splitRuns text,
      r ≠ [] ∧ ∀ c ∈ r, isSpace c = isSpace (r.headD ' '))
  ∧ (∀ text : List Char,
      List.Chain' (fun r s => r.all isSpace ≠ s.all isSpace)
        (splitRuns text))
  ∧ (∀ text : List Char,
      tokenize_text text
        = (splitRuns text).filter (fun r => !(py_strip r).isEmpty))
  ∧ tokenize_text "a  b".toList = ["a".toList, "b".toList]
  ∧ tokenize_text "".toList = [] :=
  ⟨fun text => splitRunsFuel_flatten _ _ (Nat.lt_succ_self _),
   fun text r hr => splitRunsFuel_runs _ _ _ hr,
   fun text => splitRunsFuel_chain _ _ (Nat.lt_succ_self _),
   fun text => rfl,
   by decide, by decide⟩

theorem c4_tokenizer_runs_roundtrip_witness :
    "a".toList ≠ []
      ∧ ∀ c ∈ "a".toList, isSpace c = isSpace ("a".toList.headD ' ') :=
  c4_tokenizer_runs_roundtrip.2.1 "a  b".toList "a".toList (by decide)

/-- C5: the common-term extractor never returns a stop word, however
frequent: candidates shorter than min_length or in the stop-word set are
discarded before counting, and `analyze_common_words(["the the the"]) = []`. -/
theorem c5_stop_words_never_returned :
    (∀ texts min_length top_n (w : List Char),
      w ∈ analyze_common_words texts min_length top_n → w ∉ stop_words)
  ∧ analyze_common_words ["the the the".toList] 3 2 = [] :=
  ⟨fun texts min_length top_n w h =>
    (analyze_member_props texts min_length top_n w h).2.2.1,
   by decide⟩

theorem c5_stop_words_never_returned_witness :
    "cat".toList ∉ stop_words :=
  c5_stop_words_never_returned.1 ["cat cat cat dog".toList] 3 1 "cat".toList
    (by decide)

/-- C6 counterexample: for `cluster_labels = [1, 0, 1]` the renderer shows
the clusters in ascending label order `[0, 1]`, not in the first-seen order
`[1, 0]` of the distinct labels, refuting the claimed display order. -/
theorem c6_grouping_counterexample :
    (displayed_clusters [1, 0, 1] c6ex).map Prod.fst = [0, 1]
  ∧ (group_clusters [1, 0, 1] c6ex).map Prod.fst = [1, 0]
  ∧ (displayed_clusters [1, 0, 1] c6ex).map Prod.fst
      ≠ (group_clusters [1, 0, 1] c6ex).map Prod.fst :=
  ⟨by decide, by decide, by decide⟩

/-- C6 (amended): the renderer groups examples by label with per-cluster
example order preserved — the grouping dict's keys are in first-seen order,
and for `[1, 0, 1]` cluster 0 holds `[examples[1]]` and cluster 1 holds
`[examples[0], examples[2]]` — but the clusters are displayed sorted by
ascending label, not in first-seen label order. -/
theorem c6_grouping_order :
    (∀ (cluster_labels : List Int) (text_examples : List (List Char))
        (l : Int),
      glook (group_clusters cluster_labels text_examples) l
        = ((List.zip cluster_labels text_examples).filter
            (fun p => decide (p.1 = l))).map Prod.snd)
  ∧ (∀ (cluster_labels : List Int) (text_examples : List (List Char)),
      (group_clusters cluster_labels text_examples).map Prod.fst
        = first_seen ((List.zip cluster_labels text_examples).map Prod.fst))
  ∧ (∀ (cluster_labels : List Int) (text_examples : List (List Char)),
      List.Chain' (fun a b => a.1 ≤ b.1)
        (displayed_clusters cluster_labels text_examples))
  ∧ (∀ (cluster_labels : List Int) (text_examples : List (List Char))
        (x : Int × List (List Char)),
      x ∈ displayed_clusters cluster_labels text_examples
        ↔ x ∈ group_clusters cluster_labels text_examples)
  ∧ glook (group_clusters [1, 0, 1] c6ex) 0 = ["b".toList]
  ∧ glook (group_clusters [1, 0, 1] c6ex) 1 = ["a".toList, "c".toList] :=
  ⟨group_clusters_glook, group_clusters_keys,
   fun ls es => chain_sortAscClusters _,
   fun ls es x => mem_sortAscClusters _ _,
   by decide, by decide⟩

/-- C7 counterexample: for a series whose only record has step 1000, the
final panel's requested step 143000 is absent from the series, yet no
MissingCheckpoint condition is reported — the panel falls back to the last
record and renders it. -/
theorem c7_missing_checkpoint_counterexample :
    List.find? (fun d => d.checkpoint_step == 143000)
        [CheckpointRecord.mk 1000 [] []] = none
  ∧ final_panel_data [CheckpointRecord.mk 1000 [] []]
      = some (CheckpointRecord.mk 1000 [] []) :=
  ⟨by decide, by decide⟩

/-- C7 (amended): the selected-checkpoint panel reports MissingCheckpoint
exactly when the selected step is absent from the series; the fixed final
panel requests step 143000 but falls back to the series' last record when it
is absent, reporting an error only for an empty series; the two panels'
outcomes are determined independently from the same series. -/
theorem c7_missing_checkpoint_reporting :
    ∀ (data : List CheckpointRecord) (sel : Int),
      (left_panel_data data sel = none
        ↔ ∀ d ∈ data, d.checkpoint_step ≠ sel)
    ∧ (final_panel_data data = none ↔ data = []) :=
  fun data sel => ⟨left_panel_none_iff data sel, final_panel_none_iff data⟩

theorem c7_missing_checkpoint_reporting_witness :
    left_panel_data [CheckpointRecord.mk 1000 [] []] 2000 = none :=
  ((c7_missing_checkpoint_reporting [CheckpointRecord.mk 1000 [] []] 2000).1).mpr
    (by decide)

/-- C8 counterexample: a JSON parse failure in the second of three files
makes the static-export loader abort with that error — the third file's data
is never loaded — and a record missing every required field is stored by the
dashboard loader without any error being shown. -/
theorem c8_malformed_record_counterexample :
    load_all_checkpoint_data
        [("L0N0".toList,
          [Except.ok (RawRecord.mk (some 1000) (some []) (some []))]),
         ("L0N20".toList, [Except.error "bad json".toList]),
         ("L0N40".toList,
          [Except.ok (RawRecord.mk (some 1000) (some []) (some []))])]
      = Except.error "bad json".toList
  ∧ load_neuron_data
        [("L1N0".toList, [Except.ok (RawRecord.mk none none none)])]
      = ([("L1N0".toList, [RawRecord.mk none none none])], []) :=
  ⟨rfl, rfl⟩

/-- C8 (amended): in the dashboard loader, a file whose records fail to parse
produces one visible error naming that file and is skipped, while every other
file's data is still loaded (the loader is exactly a partition of the files
into parsed data and errors); the static-export loader has no handling — the
first parse failure aborts loading, so files after it are never read; records
missing required fields parse without complaint in both loaders (field
presence is only checked later, at render time). -/
theorem c8_malformed_record_handling :
    (∀ files,
      load_neuron_data files
        = (files.filterMap (fun f =>
              match read_file_records f.2 with
              | .ok rs => some (f.1, rs)
              | .error _ => none),
           files.filterMap (fun f =>
              match read_file_records f.2 with
              | .ok _ => none
              | .error e => some (f.1, e))))
  ∧ (∀ pre f post (e : List Char),
      (∀ g ∈ pre, ∃ rs, read_file_records g.2 = Except.ok rs) →
      read_file_records f.2 = Except.error e →
      load_all_checkpoint_data (pre ++ f :: post) = Except.error e)
  ∧ (∀ r : RawRecord, read_file_records [Except.ok r] = Except.ok [r]) :=
  ⟨load_neuron_data_spec,
   fun pre f post e hok herr => load_all_abort pre f post e hok herr,
   fun _ => rfl⟩

theorem c8_malformed_record_handling_witness :
    load_all_checkpoint_data [("L2N0".toList, [Except.error "oops".toList])]
      = Except.error "oops".toList :=
  c8_malformed_record_handling.2.1 [] _ [] _
    (fun g hg => absurd hg (List.not_mem_nil g)) rfl

/-- C9 counterexample: with `min_length = 0` the extractor can return the
empty string (the empty fragment is counted and can reach the threshold), so
not every returned term is non-empty:
`analyze_common_words(["xx xx xx"], 0, 2)` contains `""`. -/
theorem c9_output_shape_counterexample :
    ([] : List Char) ∈ analyze_common_words ["xx xx xx".toList] 0 2 := by
  decide

/-- C9 (amended): the extractor returns at most `top_n` terms; every returned
term consists only of lowercase ASCII letters, has length at least
`min_length`, is not a stop word, and is either a surviving whole word or has
length at most 7 (fragment-only terms); and whenever `min_length ≥ 1`, every
returned term is non-empty (for `min_length = 0` the empty fragment can be
returned). -/
theorem c9_common_terms_output_shape :
    (∀ texts min_length top_n,
      (analyze_common_words texts min_length top_n).length ≤ top_n)
  ∧ (∀ texts min_length top_n (w : List Char),
      w ∈ analyze_common_words texts min_length top_n →
        (∀ c ∈ w, isLowerAlpha c = true)
        ∧ min_length ≤ w.length
        ∧ w ∉ stop_words
        ∧ (w ∈ filtered_words texts min_length ∨ w.length ≤ 7)
        ∧ (1 ≤ min_length → w ≠ [])) :=
  ⟨analyze_length_le, analyze_member_props⟩

theorem c9_common_terms_output_shape_witness :
    3 ≤ ("cat".toList).length ∧ "cat".toList ≠ [] :=
  let h := c9_common_terms_output_shape.2 ["cat cat cat dog".toList] 3 1
    "cat".toList (by decide)
  ⟨h.2.1, h.2.2.2.2 (by decide)⟩

/-- C10: each cluster renders only its first 5 examples, with a
"... and N more examples" note exactly when more than 5 exist, while the
common-term analysis highlighting each rendered example is computed over the
full example list — concretely, truncating the analysis to the displayed
5 examples would change the highlighting. -/
theorem c10_display_truncation :
    (∀ (examples : List (List Char)) ( is_right_panel : Bool),
      display_cluster_examples examples is_right_panel
        = (examples.take 5).map
            (fun e => (e, highlight_tokens_flags e examples is_right_panel)))
  ∧ (∀ (examples : List (List Char)) ( is_right_panel : Bool),
      (display_cluster_examples examples is_right_panel).length
        = min 5 examples.length)
  ∧ (∀ examples : List (List Char), 5 < examples.length →
      more_examples_note examples = some (examples.length - 5))
  ∧ (∀ examples : List (List Char), examples.length ≤ 5 →
      more_examples_note examples = none)
  ∧ highlight_tokens_flags ("red blue green".toList) c10ex true
      ≠ highlight_tokens_flags ("red blue green".toList) (c10ex.take 5)
          true :=
  ⟨fun examples rp => rfl,
   fun examples rp => by simp [display_cluster_examples],
   fun examples h => by rw [more_examples_note, if_pos h],
   fun examples h => by rw [more_examples_note, if_neg (by omega)],
   by decide⟩

theorem c10_display_truncation_witness :
    more_examples_note c10ex = some (c10ex.length - 5) :=
  c10_display_truncation.2.2.1 c10ex (by decide)
